/-
Verification development for the `daniel` in-memory FUSE namespace engine
(`src/filesystem/daniel.rs`, `src/filesystem/metadata.rs`,
`src/filesystem/file_types.rs`).

Shallow embedding notes:
* `Inode` (a `NonZeroU64` in the source) is modelled as `Nat`; the value `0`
  is invalid, and every place the source runs the `unchecked_inode!` macro
  (which `assert!`s the value is non-zero) is modelled as an explicit
  `= 0` test that produces the panic outcome.
* Rust panics (`expect`, `assert!`, `panic!`, the panicking accessors
  `DirEntry::directory()`, `DirEntry::file()`, `DirEntry::directory_mut()`)
  are modelled as the `none` result of an `Option`-returning operation;
  a `some` result carries the typed result `R` together with the post-state,
  mirroring the `&mut self` receiver of every engine method.
* `HashMap` / `BTreeMap` are modelled as association lists with
  replace-on-insert (`aput`), remove-key (`adel`) and first-match lookup
  (`aget`).  The iteration order of a Rust `HashMap` is unspecified; the
  model fixes insertion order, a deterministic refinement used by
  `Daniel::lookup`, which scans a directory's child set.
* `SystemTime::now()` is nondeterministic, so every operation that stamps a
  time takes an explicit `now : Nat` clock argument; the process start clock
  of the initial state is fixed at `0`.
* `Inode::add` uses `NonZeroU64::saturating_add`, modelled by `inodeAdd`,
  which saturates at `u64::MAX = 2 ^ 64 - 1`.
-/
import Mathlib

set_option maxRecDepth 4096

namespace DanielFs

/-! ## Association-list maps (model of `HashMap` / `BTreeMap`) -/

/-- First-match lookup in an association list (model of `HashMap::get`). -/
def aget {K V : Type} [DecidableEq K] : List (K × V) → K → Option V
  | [], _ => none
  | (k', v) :: rest, k => if k' = k then some v else aget rest k

/-- Replace-or-append insert (model of `HashMap::insert`: last write wins). -/
def aput {K V : Type} [DecidableEq K] : List (K × V) → K → V → List (K × V)
  | [], k, v => [(k, v)]
  | (k', v') :: rest, k, v =>
    if k' = k then (k', v) :: rest else (k', v') :: aput rest k v

/-- Remove a key (model of `HashMap::remove` / `BTreeMap::remove`). -/
def adel {K V : Type} [DecidableEq K] : List (K × V) → K → List (K × V)
  | [], _ => []
  | (k', v') :: rest, k =>
    if k' = k then adel rest k else (k', v') :: adel rest k

/-- The keys of an association list. -/
def akeys {K V : Type} (m : List (K × V)) : List K :=
  m.map Prod.fst

/-! ## Data model (`file_types.rs`, `metadata.rs`) -/

/-- The subset of `fuser::FileType` this core ever constructs. -/
inductive FileType : Type
  | directory
  | regularFile
deriving DecidableEq

/-- Child-kind tag stored in a directory's child set (`EntryType`). -/
inductive EntryType : Type
  | file
  | directory
deriving DecidableEq

/-- Model of `fuser::TimeOrNow`. -/
inductive TimeOrNow : Type
  | specificTime (t : Nat)
  | now
deriving DecidableEq

/-- Model of `fuser::FileAttr` as wrapped by `FileAttribute`. -/
structure FileAttr where
  ino : Nat
  size : Nat
  blocks : Nat
  atime : Nat
  mtime : Nat
  ctime : Nat
  crtime : Nat
  kind : FileType
  perm : Nat
  nlink : Nat
  uid : Nat
  gid : Nat
  rdev : Nat
  flags : Nat
  blksize : Nat
deriving DecidableEq

/-- `FileAttribute::new`: fresh record, all four timestamps set to `now`,
everything else zeroed. -/
def FileAttr.new (ino : Nat) (kind : FileType) (perm : Nat) (now : Nat) : FileAttr :=
  { ino := ino, size := 0, blocks := 0, atime := now, mtime := now, ctime := now,
    crtime := now, kind := kind, perm := perm, nlink := 0, uid := 0, gid := 0,
    rdev := 0, flags := 0, blksize := 0 }

/-- Model of `file_types::File`. -/
structure File where
  parent : Nat
  attr : FileAttr
  name : String
deriving DecidableEq

/-- `File::new(name, parent, inode, perms)`. -/
def File.new (name : String) (parent : Nat) (inode : Nat) (perms : Nat)
    (now : Nat) : File :=
  { name := name, parent := parent,
    attr := FileAttr.new inode FileType.regularFile perms now }

/-- Model of `file_types::Directory`: parent, name, attribute record and the
child set `entries : HashMap<Inode, EntryType>`. -/
structure Directory where
  parent : Nat
  name : String
  attr : FileAttr
  entries : List (Nat × EntryType)
deriving DecidableEq

/-- `Directory::new(parent, name, inode, perms)`: empty child set. -/
def Directory.new (parent : Nat) (name : String) (inode : Nat) (perms : Nat)
    (now : Nat) : Directory :=
  { parent := parent, name := name,
    attr := FileAttr.new inode FileType.directory perms now, entries := [] }

/-- Model of `file_types::DirEntry`. -/
inductive DirEntry : Type
  | dir (d : Directory)
  | file (f : File)
deriving DecidableEq

/-- `DirEntry::kind`. -/
def DirEntry.kind : DirEntry → FileType
  | DirEntry.dir _ => FileType.directory
  | DirEntry.file _ => FileType.regularFile

/-- The `EntryType` a `DirEntry`'s kind converts to in `Daniel::push`
(`item.kind().try_into()`, which never fails on the two variants). -/
def DirEntry.kindE : DirEntry → EntryType
  | DirEntry.dir _ => EntryType.directory
  | DirEntry.file _ => EntryType.file

/-- `DirEntry::attr` (total: both variants carry an attribute record). -/
def DirEntry.attr : DirEntry → FileAttr
  | DirEntry.dir d => d.attr
  | DirEntry.file f => f.attr

/-- The entry's single-component name. -/
def DirEntry.name : DirEntry → String
  | DirEntry.dir d => d.name
  | DirEntry.file f => f.name

/-- The entry's parent identifier. -/
def DirEntry.parent : DirEntry → Nat
  | DirEntry.dir d => d.parent
  | DirEntry.file f => f.parent

/-- Replace the attribute record in place (`DirEntry::attr_mut`). -/
def DirEntry.withAttr : DirEntry → FileAttr → DirEntry
  | DirEntry.dir d, a => DirEntry.dir { d with attr := a }
  | DirEntry.file f, a => DirEntry.file { f with attr := a }

/-- `u64::MAX`, the saturation point of `NonZeroU64::saturating_add`. -/
def U64MAX : Nat := 2 ^ 64 - 1

/-- `Inode::add` (`saturating_add`). -/
def inodeAdd (i : Nat) (r : Nat) : Nat :=
  min (i + r) U64MAX

/-- Model of `metadata::InodeMapper`: the flat `paths` index, the
`(parent, name) -> inode` map, and the allocation frontier `next_inode`. -/
structure InodeMapper where
  paths : List (String × Nat)
  map : List ((Nat × String) × Nat)
  next_inode : Nat
deriving DecidableEq

/-- `InodeMapper::default`: root bindings for identifier 1, frontier 2. -/
def InodeMapper.default : InodeMapper :=
  { paths := [("/", 1)], map := [((1, "/"), 1)], next_inode := 2 }

/-- `InodeMapper::insert`: registers both indexes and advances the frontier
by a saturating increment. -/
def InodeMapper.insert (m : InodeMapper) (parent : Nat) (path : String)
    (inode : Nat) : InodeMapper :=
  { map := aput m.map (parent, path) inode,
    paths := aput m.paths path inode,
    next_inode := inodeAdd m.next_inode 1 }

/-- `InodeMapper::remove`: deletes both index entries; frontier unchanged. -/
def InodeMapper.remove (m : InodeMapper) (parent : Nat) (path : String) :
    InodeMapper :=
  { map := adel m.map (parent, path),
    paths := adel m.paths path,
    next_inode := m.next_inode }

/-- `InodeMapper::get_map`. -/
def InodeMapper.get_map (m : InodeMapper) (parent : Nat) (path : String) :
    Option Nat :=
  aget m.map (parent, path)

/-- Model of `Daniel`: the inode mapper plus the entry list
(`DirList.map : HashMap<Inode, DirEntry>`). -/
structure Daniel where
  mapper : InodeMapper
  list : List (Nat × DirEntry)
deriving DecidableEq

/-- `Daniel::default`: `InodeMapper::default` plus `DirList::default`, which
binds identifier 1 to the root directory `Directory::new(1, "/", 1, 0o755)`. -/
def Daniel.default : Daniel :=
  { mapper := InodeMapper.default,
    list := [(1, DirEntry.dir (Directory.new 1 "/" 1 0o755 0))] }

/-- Typed result of an engine operation: `R.ok` carries the value, `R.err`
is the typed failure the protocol adapter maps to an errno (`ENOENT`) or,
for `readdir`, the End-of-listing signal. -/
inductive R (α : Type) : Type
  | ok (a : α)
  | err
deriving DecidableEq

/-! ## Engine operations (`daniel.rs`)

Every operation returns `Option (R α × Daniel)`: `none` models a panic
(`expect` / `assert!`), `some (r, s')` models a normal return of the typed
result `r` with post-state `s'`. -/

/-- `Daniel::push`: registers the item in the `InodeMapper`, inserts its
identifier into the parent's child set (panicking via `expect` if the parent
is absent and via `directory_mut` if the parent is a file), then inserts the
item into the entry list. -/
def Daniel.push (s : Daniel) (item : DirEntry) : Option Daniel :=
  let parent := DirEntry.parent item
  let name := DirEntry.name item
  let ino := (DirEntry.attr item).ino
  if ino = 0 then
    none
  else
    let mapper := InodeMapper.insert s.mapper parent name ino
    match aget s.list parent with
    | none => none
    | some (DirEntry.file _) => none
    | some (DirEntry.dir d) =>
      let d' : Directory := { d with entries := aput d.entries ino (DirEntry.kindE item) }
      let list1 := aput s.list parent (DirEntry.dir d')
      let list2 := aput list1 ino item
      some { mapper := mapper, list := list2 }

/-- `Daniel::create`: allocates `next_inode`, pushes a fresh `File` entry,
then re-reads it (panicking if the re-read fails or yields a directory) and
returns its attribute record.  The `mode` argument is unused in the source
(`_mode`). -/
def Daniel.create (s : Daniel) (parent : Nat) (path : String) (mode : Nat)
    (perms : Nat) (now : Nat) : Option (R FileAttr × Daniel) :=
  let inode := s.mapper.next_inode
  match Daniel.push s (DirEntry.file (File.new path parent inode perms now)) with
  | none => none
  | some s1 =>
    match aget s1.list inode with
    | none => none
    | some (DirEntry.dir _) => none
    | some (DirEntry.file f) => some (R.ok f.attr, s1)

/-- `Daniel::mkdir`: asserts the parent identifier is non-zero
(`unchecked_inode!`), allocates `next_inode`, pushes a fresh `Directory`
entry with permissions hard-coded to `0o755` (both `mode` and `umask` are
ignored), then re-reads it and returns its attribute record. -/
def Daniel.mkdir (s : Daniel) (parent : Nat) (name : String) (mode : Nat)
    (umask : Nat) (now : Nat) : Option (R FileAttr × Daniel) :=
  if parent = 0 then
    none
  else
    let inode := s.mapper.next_inode
    match Daniel.push s (DirEntry.dir (Directory.new parent name inode 0o755 now)) with
    | none => none
    | some s1 =>
      match aget s1.list inode with
      | none => none
      | some (DirEntry.file _) => none
      | some (DirEntry.dir d) => some (R.ok d.attr, s1)

/-- `Daniel::readdir`: End (`R.err`) for an unknown identifier or a file;
for a directory, looks up the entry whose identifier equals
`max(offset, 1)` in the global entry list, End if absent. -/
def Daniel.readdir (s : Daniel) (ino : Nat) (fh : Nat) (offset : Nat) :
    Option (R DirEntry × Daniel) :=
  if ino = 0 then
    none
  else
    match aget s.list ino with
    | none => some (R.err, s)
    | some (DirEntry.file _) => some (R.err, s)
    | some (DirEntry.dir _) =>
      match aget s.list (max offset 1) with
      | none => some (R.err, s)
      | some e => some (R.ok e, s)

/-- The scan loop of `Daniel::lookup` over a directory's child set: each
child identifier is resolved through the entry list (panicking via
`expect("invalid entry in dir")` on a dangling identifier) and its name is
compared against the request. -/
def lookupScan (s : Daniel) (entries : List (Nat × EntryType)) (name : String) :
    Option (R FileAttr) :=
  match entries with
  | [] => some R.err
  | (ino, _) :: rest =>
    match aget s.list ino with
    | none => none
    | some e =>
      if DirEntry.name e = name then some (R.ok (DirEntry.attr e))
      else lookupScan s rest name

/-- `Daniel::lookup`: asserts the parent is non-zero, fetches the parent
entry (panicking via `expect("failed to get dir")` if absent and via
`directory()` if it is a file), then scans its child set by name. -/
def Daniel.lookup (s : Daniel) (parent : Nat) (name : String) :
    Option (R FileAttr × Daniel) :=
  if parent = 0 then
    none
  else
    match aget s.list parent with
    | none => none
    | some (DirEntry.file _) => none
    | some (DirEntry.dir d) => (lookupScan s d.entries name).map (fun r => (r, s))

/-- `Daniel::access`: pure existence check; the permission mask is ignored. -/
def Daniel.access (s : Daniel) (ino : Nat) (mask : Int) :
    Option (R Unit × Daniel) :=
  if ino = 0 then
    none
  else
    match aget s.list ino with
    | some _ => some (R.ok (), s)
    | none => some (R.err, s)

/-- `Daniel::getattr`: asserts `ino` is non-zero, then reads the entry's
attribute record, panicking via `expect("failed to find ino in backing fs")`
when the identifier is absent. -/
def Daniel.getattr (s : Daniel) (ino : Nat) (fh : Option Nat) :
    Option (R FileAttr × Daniel) :=
  if ino = 0 then
    none
  else
    match aget s.list ino with
    | none => none
    | some e => some (R.ok (DirEntry.attr e), s)

/-- `Daniel::unlink`: resolves the `(parent, name)` pair through the
`InodeMapper` (panicking via `expect("failed to find inode")` when the pair
is absent), removes the resolved identifier from the entry list and the pair
from the mapper.  The parent's child set is left untouched, and the `Err`
branch of the source is unreachable. -/
def Daniel.unlink (s : Daniel) (parent : Nat) (name : String) :
    Option (R Unit × Daniel) :=
  if parent = 0 then
    none
  else
    match InodeMapper.get_map s.mapper parent name with
    | none => none
    | some ino =>
      some (R.ok (),
        { mapper := InodeMapper.remove s.mapper parent name,
          list := adel s.list ino })

/-- `Filesystem::setattr for Daniel`: replies `ENOENT` (typed `R.err`) when
the identifier is absent; otherwise applies exactly the present fields
(`size`, `atime`, `mtime`, `ctime`, where the two access/modify stamps admit
a `Now` variant resolved against the clock) and returns the updated record. -/
def Daniel.setattr (s : Daniel) (ino : Nat) (size : Option Nat)
    (atime : Option TimeOrNow) (mtime : Option TimeOrNow)
    (ctime : Option Nat) (nowT : Nat) : Option (R FileAttr × Daniel) :=
  if ino = 0 then
    none
  else
    match aget s.list ino with
    | none => some (R.err, s)
    | some entry =>
      let a0 := DirEntry.attr entry
      let a1 := match size with
        | some v => { a0 with size := v }
        | none => a0
      let a2 := match atime with
        | some (TimeOrNow.specificTime t) => { a1 with atime := t }
        | some TimeOrNow.now => { a1 with atime := nowT }
        | none => a1
      let a3 := match mtime with
        | some (TimeOrNow.specificTime t) => { a2 with mtime := t }
        | some TimeOrNow.now => { a2 with mtime := nowT }
        | none => a2
      let a4 := match ctime with
        | some t => { a3 with ctime := t }
        | none => a3
      some (R.ok a4, { s with list := aput s.list ino (DirEntry.withAttr entry a4) })

/-! ## Operation sequences -/

/-- One engine request, for reasoning about sequences of operations. -/
inductive Op : Type
  | create (parent : Nat) (name : String) (mode : Nat) (perms : Nat) (now : Nat)
  | mkdir (parent : Nat) (name : String) (mode : Nat) (umask : Nat) (now : Nat)
  | unlink (parent : Nat) (name : String)
  | setattr (ino : Nat) (size : Option Nat) (atime : Option TimeOrNow)
      (mtime : Option TimeOrNow) (ctime : Option Nat) (now : Nat)
  | lookup (parent : Nat) (name : String)
  | getattr (ino : Nat) (fh : Option Nat)
  | access (ino : Nat) (mask : Int)
  | readdir (ino : Nat) (fh : Nat) (offset : Nat)
deriving DecidableEq

/-- Dispatch one request, keeping only the post-state (`none` = panic). -/
def step (s : Daniel) : Op → Option Daniel
  | Op.create p n m pm t => (Daniel.create s p n m pm t).map Prod.snd
  | Op.mkdir p n m u t => (Daniel.mkdir s p n m u t).map Prod.snd
  | Op.unlink p n => (Daniel.unlink s p n).map Prod.snd
  | Op.setattr i sz a mt c t => (Daniel.setattr s i sz a mt c t).map Prod.snd
  | Op.lookup p n => (Daniel.lookup s p n).map Prod.snd
  | Op.getattr i f => (Daniel.getattr s i f).map Prod.snd
  | Op.access i m => (Daniel.access s i m).map Prod.snd
  | Op.readdir i f o => (Daniel.readdir s i f o).map Prod.snd

/-- Run a request sequence; `none` as soon as any request panics. -/
def run (s : Daniel) : List Op → Option Daniel
  | [] => some s
  | op :: ops =>
    match step s op with
    | none => none
    | some s' => run s' ops

/-- An allocating request (one that calls `next_inode` and `push`). -/
def isAllocOp : Op → Bool
  | Op.create _ _ _ _ _ => true
  | Op.mkdir _ _ _ _ _ => true
  | _ => false

/-- Number of allocating requests in a sequence. -/
def countAlloc : List Op → Nat
  | [] => 0
  | op :: rest => (if isAllocOp op then 1 else 0) + countAlloc rest

/-- Apply an allocating request, exposing the attribute record it returns
(`none` for non-allocating requests, panics, and the unreachable `R.err`). -/
def applyAlloc (s : Daniel) : Op → Option (FileAttr × Daniel)
  | Op.create p n m pm t =>
    (Daniel.create s p n m pm t).bind (fun x =>
      match x.1 with
      | R.ok a => some (a, x.2)
      | R.err => none)
  | Op.mkdir p n m u t =>
    (Daniel.mkdir s p n m u t).bind (fun x =>
      match x.1 with
      | R.ok a => some (a, x.2)
      | R.err => none)
  | _ => none

/-- Whether a request addresses the root's path-index pair `(1, "/")`. -/
def hitsRootPair : Op → Bool
  | Op.create p n _ _ _ => decide (p = 1 ∧ n = "/")
  | Op.mkdir p n _ _ _ => decide (p = 1 ∧ n = "/")
  | Op.unlink p n => decide (p = 1 ∧ n = "/")
  | _ => false

/-- The state reached by a request sequence from the initial state
(defaulting to the initial state itself; used only to name states of
successful runs in closed statements). -/
def runD (ops : List Op) : Daniel :=
  (run Daniel.default ops).getD Daniel.default

/-- The post-state of a single operation result (defaulting to `dflt`;
used only to name post-states of successful calls in closed statements). -/
def stateOf {α : Type} (o : Option (R α × Daniel)) (dflt : Daniel) : Daniel :=
  match o with
  | some x => x.2
  | none => dflt

/-- The state `Daniel::push` produces on success, given the parent's prior
directory record `d`: the mapper registers the pair, the parent's child set
gains the new identifier, and the entry list gains the item. -/
def pushResult (s : Daniel) (item : DirEntry) (d : Directory) : Daniel :=
  let parent := DirEntry.parent item
  let nm := DirEntry.name item
  let ino := (DirEntry.attr item).ino
  let d2 : Directory := { d with entries := aput d.entries ino (DirEntry.kindE item) }
  { mapper := InodeMapper.insert s.mapper parent nm ino,
    list := aput (aput s.list parent (DirEntry.dir d2)) ino item }

/-! ## Concrete scenario checkers

Each checker runs a short request scenario on the model and compares every
intermediate result against an expected value with `decide`; a theorem
`checker = true` is then a kernel-checked evaluation of the embedded code. -/

/-- Scenario: `create(1, "foo")` hands out identifier 2, then
`unlink(1, "foo")` succeeds.  Checks that identifier 2 is still present in
the root's child set afterwards, and that `getattr(2)` and `lookup(1, "foo")`
then panic (hit an `expect`) instead of failing NotFound. -/
def unlinkDanglingCheck : Bool :=
  match Daniel.create Daniel.default 1 "foo" 0 0 0 with
  | some (R.ok a, s1) =>
    decide (a.ino = 2) &&
    (match Daniel.unlink s1 1 "foo" with
     | some (R.ok _, s2) =>
       (match aget s2.list 1 with
        | some (DirEntry.dir d) => decide (aget d.entries 2 = some EntryType.file)
        | _ => false) &&
       decide (Daniel.getattr s2 2 none = none) &&
       decide (Daniel.lookup s2 1 "foo" = none)
     | _ => false)
  | _ => false

/-- Scenario: on the initial state, `getattr(2)` hits
`expect("failed to find ino in backing fs")`, `unlink(1, "nope")` hits
`expect("failed to find inode")`, and `lookup(2, "x")` hits
`expect("failed to get dir")`: all three panic instead of returning a typed
error. -/
def engineOpPanicCheck : Bool :=
  decide (Daniel.getattr Daniel.default 2 none = none) &&
  decide (Daniel.unlink Daniel.default 1 "nope" = none) &&
  decide (Daniel.lookup Daniel.default 2 "x" = none)

/-- Scenario: the child-insertion step of `create`/`mkdir` (inside
`Daniel::push`) panics when the parent identifier is absent (identifier 5 on
the initial state) and when the parent resolves to a file (identifier 2
right after `create(1, "f")`), instead of failing NotFound. -/
def childInsertBadParentCheck : Bool :=
  decide (Daniel.create Daniel.default 5 "x" 0 0 0 = none) &&
  decide (Daniel.mkdir Daniel.default 5 "x" 0 0 0 = none) &&
  (match Daniel.create Daniel.default 1 "f" 0 0 0 with
   | some (_, s1) =>
     decide (Daniel.create s1 2 "y" 0 0 0 = none) &&
     decide (Daniel.mkdir s1 2 "y" 0 0 0 = none)
   | none => false)

/-- Scenario: `create(1, "a")` returns identifier 2, a second
`create(1, "a")` returns identifier 3 without removing the first entry, and
`lookup(1, "a")` afterwards returns the identifier-2 record: the pair
inserted by the second call is still present, yet lookup does not return its
identifier. -/
def shadowCreateCheck : Bool :=
  match Daniel.create Daniel.default 1 "a" 0 0 0 with
  | some (R.ok a1, s1) =>
    decide (a1.ino = 2) &&
    (match Daniel.create s1 1 "a" 0 0 0 with
     | some (R.ok a2, s2) =>
       decide (a2.ino = 3) &&
       (match Daniel.lookup s2 1 "a" with
        | some (R.ok a, _) => decide (a.ino = 2)
        | _ => false)
     | _ => false)
  | _ => false

/-- Scenario: `unlink(1, "/")` on the initial state succeeds and removes
both the root's directory entry and its path-index binding. -/
def rootUnlinkCheck : Bool :=
  match Daniel.unlink Daniel.default 1 "/" with
  | some (R.ok _, s2) =>
    decide (aget s2.list 1 = none) && decide (aget s2.mapper.map (1, "/") = none)
  | _ => false

/-! ## Invariants used in the inductive proofs -/

/-- Root-permanence invariant: identifier 1 is bound to a directory named
`"/"` that is its own parent, the path-index pair `(1, "/")` is bound to 1,
no other pair is bound to 1, and the allocation frontier is at least 2. -/
def InvRoot (s : Daniel) : Prop :=
  (∃ d : Directory, aget s.list 1 = some (DirEntry.dir d) ∧
    d.name = "/" ∧ d.parent = 1) ∧
  aget s.mapper.map (1, "/") = some 1 ∧
  (∀ p n, aget s.mapper.map (p, n) = some 1 → p = 1 ∧ n = "/") ∧
  2 ≤ s.mapper.next_inode

/-- Allocation invariant: every identifier in the entry list lies strictly
below the allocation frontier (hence a fresh allocation cannot collide),
and the frontier is at least 2. -/
def InvK (s : Daniel) : Prop :=
  (∀ k ∈ akeys s.list, k < s.mapper.next_inode) ∧ 2 ≤ s.mapper.next_inode

/-! ## Association-list lemmas -/

theorem akeys_nil {K V : Type} : akeys ([] : List (K × V)) = [] := rfl

theorem akeys_cons {K V : Type} (hd : K × V) (tl : List (K × V)) :
    akeys (hd :: tl) = hd.1 :: akeys tl := rfl

theorem aget_aput_self {K V : Type} [DecidableEq K] (m : List (K × V)) (k : K)
    (v : V) : aget (aput m k v) k = some v := by
  induction m with
  | nil => simp [aput, aget]
  | cons hd tl ih =>
    obtain ⟨k0, v0⟩ := hd
    simp only [aput]
    by_cases h0 : k0 = k
    · rw [if_pos h0]
      simp only [aget, if_pos h0]
    · rw [if_neg h0]
      simp only [aget, if_neg h0, ih]

theorem aget_aput_ne {K V : Type} [DecidableEq K] (m : List (K × V))
    (k k' : K) (v : V) (h : k' ≠ k) : aget (aput m k v) k' = aget m k' := by
  induction m with
  | nil =>
    have hk : ¬(k = k') := fun hh => h hh.symm
    simp only [aput, aget, if_neg hk]
  | cons hd tl ih =>
    obtain ⟨k0, v0⟩ := hd
    simp only [aput]
    by_cases h0 : k0 = k
    · rw [if_pos h0]
      have hk : ¬(k0 = k') := by
        rw [h0]
        exact fun hh => h hh.symm
      simp only [aget, if_neg hk]
    · rw [if_neg h0]
      by_cases h1 : k0 = k'
      · simp only [aget, if_pos h1]
      · simp only [aget, if_neg h1, ih]

theorem aget_adel_self {K V : Type} [DecidableEq K] (m : List (K × V)) (k : K) :
    aget (adel m k) k = none := by
  induction m with
  | nil => simp only [adel, aget]
  | cons hd tl ih =>
    obtain ⟨k0, v0⟩ := hd
    simp only [adel]
    by_cases h0 : k0 = k
    · rw [if_pos h0]
      exact ih
    · rw [if_neg h0]
      simp only [aget, if_neg h0, ih]

theorem aget_adel_ne {K V : Type} [DecidableEq K] (m : List (K × V))
    (k k' : K) (h : k' ≠ k) : aget (adel m k) k' = aget m k' := by
  induction m with
  | nil => simp only [adel]
  | cons hd tl ih =>
    obtain ⟨k0, v0⟩ := hd
    simp only [adel]
    by_cases h0 : k0 = k
    · rw [if_pos h0]
      have hk : ¬(k0 = k') := by
        rw [h0]
        exact fun hh => h hh.symm
      simp only [aget, if_neg hk, ih]
    · rw [if_neg h0]
      by_cases h1 : k0 = k'
      · simp only [aget, if_pos h1]
      · simp only [aget, if_neg h1, ih]

theorem akeys_aput_mem {K V : Type} [DecidableEq K] (m : List (K × V))
    (k : K) (v : V) (h : k ∈ akeys m) : akeys (aput m k v) = akeys m := by
  induction m with
  | nil => simp [akeys_nil] at h
  | cons hd tl ih =>
    obtain ⟨k0, v0⟩ := hd
    simp only [aput]
    by_cases h0 : k0 = k
    · rw [if_pos h0]
      simp only [akeys_cons]
    · rw [if_neg h0]
      simp only [akeys_cons]
      have hmem : k ∈ akeys tl := by
        rw [akeys_cons] at h
        rcases List.mem_cons.mp h with hh | hh
        · exact absurd hh.symm h0
        · exact hh
      rw [ih hmem]

theorem akeys_aput_not_mem {K V : Type} [DecidableEq K] (m : List (K × V))
    (k : K) (v : V) (h : k ∉ akeys m) : akeys (aput m k v) = akeys m ++ [k] := by
  induction m with
  | nil => simp [aput, akeys]
  | cons hd tl ih =>
    obtain ⟨k0, v0⟩ := hd
    have hne : k0 ≠ k := by
      intro hh
      exact h (by rw [akeys_cons]; exact List.mem_cons.mpr (Or.inl hh.symm))
    have htl : k ∉ akeys tl := by
      intro hh
      exact h (by rw [akeys_cons]; exact List.mem_cons.mpr (Or.inr hh))
    simp only [aput, if_neg hne, akeys_cons, ih htl, List.cons_append]

theorem akeys_adel_sublist {K V : Type} [DecidableEq K] (m : List (K × V))
    (k : K) : (akeys (adel m k)).Sublist (akeys m) := by
  induction m with
  | nil => simp [adel, akeys]
  | cons hd tl ih =>
    obtain ⟨k0, v0⟩ := hd
    simp only [adel]
    by_cases h0 : k0 = k
    · rw [if_pos h0, akeys_cons]
      exact ih.trans (List.sublist_cons_self _ _)
    · rw [if_neg h0]
      simp only [akeys_cons]
      exact List.Sublist.cons₂ _ ih

theorem aget_eq_none_of_not_mem_akeys {K V : Type} [DecidableEq K]
    (m : List (K × V)) (k : K) (h : k ∉ akeys m) : aget m k = none := by
  induction m with
  | nil => simp only [aget]
  | cons hd tl ih =>
    obtain ⟨k0, v0⟩ := hd
    have hne : ¬(k0 = k) := by
      intro hh
      exact h (by rw [akeys_cons]; exact List.mem_cons.mpr (Or.inl hh.symm))
    have htl : k ∉ akeys tl := by
      intro hh
      exact h (by rw [akeys_cons]; exact List.mem_cons.mpr (Or.inr hh))
    simp only [aget, if_neg hne, ih htl]

theorem mem_akeys_of_aget_eq_some {K V : Type} [DecidableEq K]
    (m : List (K × V)) (k : K) (v : V) (h : aget m k = some v) :
    k ∈ akeys m := by
  by_contra hk
  rw [aget_eq_none_of_not_mem_akeys m k hk] at h
  exact Option.noConfusion h

/-! ## Structural lemmas about `push`, `create`, `mkdir`, `run` -/

theorem push_file_eq (s : Daniel) (n : String) (p inode pm t : Nat)
    (d : Directory) (h0 : inode ≠ 0)
    (hp : aget s.list p = some (DirEntry.dir d)) :
    Daniel.push s (DirEntry.file (File.new n p inode pm t)) =
      some (pushResult s (DirEntry.file (File.new n p inode pm t)) d) := by
  simp only [Daniel.push, pushResult, DirEntry.parent, DirEntry.name,
    DirEntry.attr, DirEntry.kindE, File.new, FileAttr.new, if_neg h0, hp]

theorem push_dir_eq (s : Daniel) (n : String) (p inode pm t : Nat)
    (d : Directory) (h0 : inode ≠ 0)
    (hp : aget s.list p = some (DirEntry.dir d)) :
    Daniel.push s (DirEntry.dir (Directory.new p n inode pm t)) =
      some (pushResult s (DirEntry.dir (Directory.new p n inode pm t)) d) := by
  simp only [Daniel.push, pushResult, DirEntry.parent, DirEntry.name,
    DirEntry.attr, DirEntry.kindE, Directory.new, FileAttr.new, if_neg h0, hp]

theorem push_inv (s : Daniel) (item : DirEntry) (s1 : Daniel)
    (h : Daniel.push s item = some s1) :
    (DirEntry.attr item).ino ≠ 0 ∧
    ∃ d : Directory,
      aget s.list (DirEntry.parent item) = some (DirEntry.dir d) ∧
      s1 = pushResult s item d := by
  simp only [Daniel.push] at h
  split at h
  · exact Option.noConfusion h
  · rename_i hino
    refine ⟨hino, ?_⟩
    split at h
    · exact Option.noConfusion h
    · exact Option.noConfusion h
    · rename_i d hd
      exact ⟨d, hd, (Option.some.inj h).symm⟩

theorem aget_pushResult_ino (s : Daniel) (item : DirEntry) (d : Directory) :
    aget (pushResult s item d).list (DirEntry.attr item).ino = some item :=
  aget_aput_self _ _ _

theorem create_inv (s : Daniel) (p : Nat) (n : String) (m pm t : Nat)
    (r : R FileAttr) (s' : Daniel)
    (h : Daniel.create s p n m pm t = some (r, s')) :
    Daniel.push s (DirEntry.file (File.new n p s.mapper.next_inode pm t)) =
      some s' ∧
    r = R.ok (FileAttr.new s.mapper.next_inode FileType.regularFile pm t) := by
  simp only [Daniel.create] at h
  split at h
  · exact Option.noConfusion h
  · rename_i s1 hpush
    obtain ⟨hino, d, hd, hs1⟩ := push_inv _ _ _ hpush
    split at h
    · rename_i hag
      rw [hs1] at hag
      have hbad := (aget_pushResult_ino s
        (DirEntry.file (File.new n p s.mapper.next_inode pm t)) d).symm.trans hag
      exact Option.noConfusion hbad
    · rename_i d2 hag
      rw [hs1] at hag
      have hbad := (aget_pushResult_ino s
        (DirEntry.file (File.new n p s.mapper.next_inode pm t)) d).symm.trans hag
      exact DirEntry.noConfusion (Option.some.inj hbad)
    · rename_i f hag
      rw [hs1] at hag
      have heq := (aget_pushResult_ino s
        (DirEntry.file (File.new n p s.mapper.next_inode pm t)) d).symm.trans hag
      have hfeq := (DirEntry.file.inj (Option.some.inj heq)).symm
      have h2 := Option.some.inj h
      rw [Prod.mk.injEq] at h2
      constructor
      · rw [hpush, h2.2]
      · rw [← h2.1, hfeq]
        rfl

theorem mkdir_inv (s : Daniel) (p : Nat) (n : String) (m u t : Nat)
    (r : R FileAttr) (s' : Daniel)
    (h : Daniel.mkdir s p n m u t = some (r, s')) :
    p ≠ 0 ∧
    Daniel.push s (DirEntry.dir (Directory.new p n s.mapper.next_inode 0o755 t)) =
      some s' ∧
    r = R.ok (FileAttr.new s.mapper.next_inode FileType.directory 0o755 t) := by
  simp only [Daniel.mkdir] at h
  split at h
  · exact Option.noConfusion h
  · rename_i hp0
    refine ⟨hp0, ?_⟩
    split at h
    · exact Option.noConfusion h
    · rename_i s1 hpush
      obtain ⟨hino, d, hd, hs1⟩ := push_inv _ _ _ hpush
      split at h
      · rename_i hag
        rw [hs1] at hag
        have hbad := (aget_pushResult_ino s
          (DirEntry.dir (Directory.new p n s.mapper.next_inode 0o755 t)) d).symm.trans hag
        exact Option.noConfusion hbad
      · rename_i f hag
        rw [hs1] at hag
        have hbad := (aget_pushResult_ino s
          (DirEntry.dir (Directory.new p n s.mapper.next_inode 0o755 t)) d).symm.trans hag
        exact DirEntry.noConfusion (Option.some.inj hbad)
      · rename_i d2 hag
        rw [hs1] at hag
        have heq := (aget_pushResult_ino s
          (DirEntry.dir (Directory.new p n s.mapper.next_inode 0o755 t)) d).symm.trans hag
        have hdeq := (DirEntry.dir.inj (Option.some.inj heq)).symm
        have h2 := Option.some.inj h
        rw [Prod.mk.injEq] at h2
        constructor
        · rw [hpush, h2.2]
        · rw [← h2.1, hdeq]
          rfl

theorem run_append (s : Daniel) (l1 l2 : List Op) :
    run s (l1 ++ l2) = (run s l1).bind (fun s' => run s' l2) := by
  induction l1 generalizing s with
  | nil => simp [run]
  | cons op rest ih =>
    simp only [List.cons_append, run]
    cases step s op with
    | none => simp
    | some s1 => simp [ih]

theorem aput_eq_append {K V : Type} [DecidableEq K] (m : List (K × V))
    (k : K) (v : V) (h : k ∉ akeys m) : aput m k v = m ++ [(k, v)] := by
  induction m with
  | nil => rfl
  | cons hd tl ih =>
    obtain ⟨k0, v0⟩ := hd
    have hne : k0 ≠ k := by
      intro hh
      exact h (by rw [akeys_cons]; exact List.mem_cons.mpr (Or.inl hh.symm))
    have htl : k ∉ akeys tl := by
      intro hh
      exact h (by rw [akeys_cons]; exact List.mem_cons.mpr (Or.inr hh))
    simp only [aput, if_neg hne, List.cons_append, ih htl]

theorem lookupScan_skip_resolved (s : Daniel) (l1 l2 : List (Nat × EntryType))
    (nm : String)
    (h : ∀ j t, (j, t) ∈ l1 →
      ∃ e, aget s.list j = some e ∧ DirEntry.name e ≠ nm) :
    lookupScan s (l1 ++ l2) nm = lookupScan s l2 nm := by
  induction l1 with
  | nil => rfl
  | cons hd tl ih =>
    obtain ⟨j, t⟩ := hd
    obtain ⟨e, he, hne⟩ := h j t (List.mem_cons_self _ _)
    simp only [List.cons_append, lookupScan, he, if_neg hne]
    exact ih (fun j2 t2 hm => h j2 t2 (List.mem_cons_of_mem _ hm))

theorem aget_pushResult_file (s : Daniel) (nm : String) (p inode pm t : Nat)
    (d : Directory) :
    aget (pushResult s (DirEntry.file (File.new nm p inode pm t)) d).list inode =
      some (DirEntry.file (File.new nm p inode pm t)) :=
  aget_aput_self _ _ _

theorem aget_pushResult_dir (s : Daniel) (nm : String) (p inode pm t : Nat)
    (d : Directory) :
    aget (pushResult s (DirEntry.dir (Directory.new p nm inode pm t)) d).list inode =
      some (DirEntry.dir (Directory.new p nm inode pm t)) :=
  aget_aput_self _ _ _

theorem lookup_after_push (s : Daniel) (p : Nat) (nm : String)
    (item : DirEntry) (d : Directory)
    (hp0 : p ≠ 0)
    (hitem_parent : DirEntry.parent item = p)
    (hitem_name : DirEntry.name item = nm)
    (hp : aget s.list p = some (DirEntry.dir d))
    (hpf : p ≠ (DirEntry.attr item).ino)
    (hclean : ∀ j t, (j, t) ∈ d.entries →
      j ≠ (DirEntry.attr item).ino ∧
      ∃ e, aget s.list j = some e ∧ DirEntry.name e ≠ nm) :
    Daniel.lookup (pushResult s item d) p nm =
      some (R.ok (DirEntry.attr item), pushResult s item d) := by
  have hd2 : (pushResult s item d).list =
      aput (aput s.list p (DirEntry.dir { d with entries := aput d.entries (DirEntry.attr item).ino (DirEntry.kindE item) })) (DirEntry.attr item).ino item := by
    simp only [pushResult, hitem_parent]
  have hgetp : aget (pushResult s item d).list p =
      some (DirEntry.dir { d with entries := aput d.entries (DirEntry.attr item).ino (DirEntry.kindE item) }) := by
    rw [hd2, aget_aput_ne _ _ _ _ hpf, aget_aput_self]
  have hgeti : aget (pushResult s item d).list (DirEntry.attr item).ino =
      some item := aget_pushResult_ino s item d
  have hnomem : (DirEntry.attr item).ino ∉ akeys d.entries := by
    intro hmem
    obtain ⟨⟨j, t⟩, hmem', hj⟩ := List.mem_map.mp hmem
    exact absurd hj (hclean j t hmem').1
  have happ : aput d.entries (DirEntry.attr item).ino (DirEntry.kindE item) =
      d.entries ++ [((DirEntry.attr item).ino, DirEntry.kindE item)] :=
    aput_eq_append _ _ _ hnomem
  have hpre : ∀ j t, (j, t) ∈ d.entries →
      ∃ e, aget (pushResult s item d).list j = some e ∧ DirEntry.name e ≠ nm := by
    intro j t hm
    obtain ⟨hjne, e0, he0, hname⟩ := hclean j t hm
    by_cases hjp : j = p
    · subst hjp
      refine ⟨_, hgetp, ?_⟩
      have he0d := Option.some.inj (he0.symm.trans hp)
      rw [he0d] at hname
      exact hname
    · refine ⟨e0, ?_, hname⟩
      rw [hd2, aget_aput_ne _ _ _ _ hjne, aget_aput_ne _ _ _ _ hjp]
      exact he0
  simp only [Daniel.lookup, if_neg hp0, hgetp]
  rw [happ]
  rw [lookupScan_skip_resolved (pushResult s item d) d.entries _ nm hpre]
  simp [lookupScan, hgeti, hitem_name]

theorem lookup_snd (s : Daniel) (p : Nat) (n : String) (x : R FileAttr × Daniel)
    (h : Daniel.lookup s p n = some x) : x.2 = s := by
  simp only [Daniel.lookup] at h
  split at h
  · exact Option.noConfusion h
  · split at h
    · exact Option.noConfusion h
    · exact Option.noConfusion h
    · rcases Option.map_eq_some'.mp h with ⟨r, _, hx⟩
      rw [← hx]

theorem getattr_snd (s : Daniel) (ino : Nat) (fh : Option Nat)
    (x : R FileAttr × Daniel) (h : Daniel.getattr s ino fh = some x) : x.2 = s := by
  simp only [Daniel.getattr] at h
  split at h
  · exact Option.noConfusion h
  · split at h
    · exact Option.noConfusion h
    · have h2 := Option.some.inj h
      rw [← h2]

theorem access_snd (s : Daniel) (ino : Nat) (mask : Int)
    (x : R Unit × Daniel) (h : Daniel.access s ino mask = some x) : x.2 = s := by
  simp only [Daniel.access] at h
  split at h
  · exact Option.noConfusion h
  · split at h
    · have h2 := Option.some.inj h
      rw [← h2]
    · have h2 := Option.some.inj h
      rw [← h2]

theorem readdir_snd (s : Daniel) (ino fh offset : Nat)
    (x : R DirEntry × Daniel) (h : Daniel.readdir s ino fh offset = some x) :
    x.2 = s := by
  simp only [Daniel.readdir] at h
  split at h
  · exact Option.noConfusion h
  · split at h
    · have h2 := Option.some.inj h
      rw [← h2]
    · have h2 := Option.some.inj h
      rw [← h2]
    · split at h
      · have h2 := Option.some.inj h
        rw [← h2]
      · have h2 := Option.some.inj h
        rw [← h2]

theorem setattr_inv (s : Daniel) (ino : Nat) (size : Option Nat)
    (atime mtime : Option TimeOrNow) (ctime : Option Nat) (nowT : Nat)
    (r : R FileAttr) (s' : Daniel)
    (h : Daniel.setattr s ino size atime mtime ctime nowT = some (r, s')) :
    s' = s ∨ ∃ e a, aget s.list ino = some e ∧
      s' = { s with list := aput s.list ino (DirEntry.withAttr e a) } := by
  simp only [Daniel.setattr] at h
  split at h
  · exact Option.noConfusion h
  · split at h
    · have h2 := Option.some.inj h
      rw [Prod.mk.injEq] at h2
      exact Or.inl h2.2.symm
    · rename_i e he
      have h2 := Option.some.inj h
      rw [Prod.mk.injEq] at h2
      exact Or.inr ⟨e, _, he, h2.2.symm⟩

theorem unlink_inv (s : Daniel) (p : Nat) (n : String) (r : R Unit) (s' : Daniel)
    (h : Daniel.unlink s p n = some (r, s')) :
    p ≠ 0 ∧ ∃ ino, InodeMapper.get_map s.mapper p n = some ino ∧
      s' = { mapper := InodeMapper.remove s.mapper p n, list := adel s.list ino } := by
  simp only [Daniel.unlink] at h
  split at h
  · exact Option.noConfusion h
  · rename_i hp0
    refine ⟨hp0, ?_⟩
    split at h
    · exact Option.noConfusion h
    · rename_i ino hino
      have h2 := Option.some.inj h
      rw [Prod.mk.injEq] at h2
      exact ⟨ino, hino, h2.2.symm⟩

theorem u64max_eq : U64MAX = 18446744073709551615 := by decide

theorem invRoot_default : InvRoot Daniel.default := by
  refine ⟨⟨Directory.new 1 "/" 1 0o755 0, rfl, rfl, rfl⟩, rfl, ?_, by decide⟩
  intro p n hg
  simp only [Daniel.default, InodeMapper.default, aget] at hg
  split at hg
  · rename_i heq
    injection heq with h1 h2
    exact ⟨h1.symm, h2.symm⟩
  · exact Option.noConfusion hg

theorem invRoot_pushResult (s : Daniel) (item : DirEntry) (d : Directory)
    (hI : InvRoot s)
    (hino2 : 2 ≤ (DirEntry.attr item).ino)
    (hpair : ¬(DirEntry.parent item = 1 ∧ DirEntry.name item = "/"))
    (hd : aget s.list (DirEntry.parent item) = some (DirEntry.dir d)) :
    InvRoot (pushResult s item d) := by
  obtain ⟨⟨dr, hdr, hdrn, hdrp⟩, hmap1, huniq, hnext⟩ := hI
  have hlist : (pushResult s item d).list =
      aput (aput s.list (DirEntry.parent item) (DirEntry.dir { d with entries := aput d.entries (DirEntry.attr item).ino (DirEntry.kindE item) })) (DirEntry.attr item).ino item :=
    rfl
  have hne1 : (1 : Nat) ≠ (DirEntry.attr item).ino := by omega
  refine ⟨?_, ?_, ?_, ?_⟩
  · by_cases hparent1 : DirEntry.parent item = 1
    · have hddr : d = dr := by
        rw [hparent1] at hd
        exact DirEntry.dir.inj (Option.some.inj (hd.symm.trans hdr))
      refine ⟨{ d with entries := aput d.entries (DirEntry.attr item).ino (DirEntry.kindE item) }, ?_, ?_, ?_⟩
      · rw [hlist, aget_aput_ne _ _ _ _ hne1, hparent1, aget_aput_self]
      · rw [hddr]
        exact hdrn
      · rw [hddr]
        exact hdrp
    · refine ⟨dr, ?_, hdrn, hdrp⟩
      have hnep : (1 : Nat) ≠ DirEntry.parent item := fun hh => hparent1 hh.symm
      rw [hlist, aget_aput_ne _ _ _ _ hne1, aget_aput_ne _ _ _ _ hnep]
      exact hdr
  · have hkey : ((1 : Nat), "/") ≠ (DirEntry.parent item, DirEntry.name item) := by
      intro hh
      injection hh with h1 h2
      exact hpair ⟨h1.symm, h2.symm⟩
    show aget (aput s.mapper.map (DirEntry.parent item, DirEntry.name item) (DirEntry.attr item).ino) (1, "/") = some 1
    rw [aget_aput_ne _ _ _ _ hkey]
    exact hmap1
  · intro p2 n2 hg
    by_cases hk : ((p2, n2) : Nat × String) = (DirEntry.parent item, DirEntry.name item)
    · rw [hk] at hg
      have hg2 : aget (aput s.mapper.map (DirEntry.parent item, DirEntry.name item) (DirEntry.attr item).ino) (DirEntry.parent item, DirEntry.name item) = some (DirEntry.attr item).ino :=
        aget_aput_self _ _ _
      have := Option.some.inj (hg2.symm.trans hg)
      omega
    · have hg2 : aget s.mapper.map (p2, n2) = some 1 := by
        have hrw : aget (aput s.mapper.map (DirEntry.parent item, DirEntry.name item) (DirEntry.attr item).ino) (p2, n2) = aget s.mapper.map (p2, n2) :=
          aget_aput_ne _ _ _ _ hk
        exact hrw.symm.trans hg
      exact huniq p2 n2 hg2
  · show 2 ≤ inodeAdd s.mapper.next_inode 1
    simp only [inodeAdd, u64max_eq]
    omega

theorem invRoot_step (s s' : Daniel) (op : Op)
    (hroot : hitsRootPair op = false) (h : step s op = some s')
    (hI : InvRoot s) : InvRoot s' := by
  cases op with
  | create p n m pm t =>
    rcases Option.map_eq_some'.mp h with ⟨⟨r, s2⟩, hc, hs⟩
    obtain ⟨hpush, hr⟩ := create_inv _ _ _ _ _ _ _ _ hc
    obtain ⟨hino, d, hd, hs2⟩ := push_inv _ _ _ hpush
    have hnp : ¬(p = 1 ∧ n = "/") := by simpa [hitsRootPair] using hroot
    rw [← hs]
    show InvRoot s2
    rw [hs2]
    exact invRoot_pushResult s _ d hI hI.2.2.2 hnp hd
  | mkdir p n m u t =>
    rcases Option.map_eq_some'.mp h with ⟨⟨r, s2⟩, hc, hs⟩
    obtain ⟨hp0, hpush, hr⟩ := mkdir_inv _ _ _ _ _ _ _ _ hc
    obtain ⟨hino, d, hd, hs2⟩ := push_inv _ _ _ hpush
    have hnp : ¬(p = 1 ∧ n = "/") := by simpa [hitsRootPair] using hroot
    rw [← hs]
    show InvRoot s2
    rw [hs2]
    exact invRoot_pushResult s _ d hI hI.2.2.2 hnp hd
  | unlink p n =>
    rcases Option.map_eq_some'.mp h with ⟨⟨r, s2⟩, hu, hs⟩
    obtain ⟨hp0, ino, hget, hs2⟩ := unlink_inv _ _ _ _ _ hu
    have hnp : ¬(p = 1 ∧ n = "/") := by simpa [hitsRootPair] using hroot
    obtain ⟨⟨dr, hdr, hdrn, hdrp⟩, hmap1, huniq, hnext⟩ := hI
    have hino1 : ino ≠ 1 := by
      intro hh
      subst hh
      exact hnp (huniq p n hget)
    rw [← hs]
    show InvRoot s2
    rw [hs2]
    refine ⟨⟨dr, ?_, hdrn, hdrp⟩, ?_, ?_, hnext⟩
    · show aget (adel s.list ino) 1 = some (DirEntry.dir dr)
      rw [aget_adel_ne _ _ _ (fun hh => hino1 hh.symm)]
      exact hdr
    · have hkey : ((1 : Nat), "/") ≠ (p, n) := by
        intro hh
        injection hh with h1 h2
        exact hnp ⟨h1.symm, h2.symm⟩
      show aget (adel s.mapper.map (p, n)) (1, "/") = some 1
      rw [aget_adel_ne _ _ _ hkey]
      exact hmap1
    · intro p2 n2 hg
      by_cases hk : ((p2, n2) : Nat × String) = (p, n)
      · rw [hk] at hg
        have hg2 : aget (adel s.mapper.map (p, n)) (p, n) = none := aget_adel_self _ _
        exact Option.noConfusion (hg2.symm.trans hg)
      · have hg2 : aget s.mapper.map (p2, n2) = some 1 :=
          (aget_adel_ne _ _ _ hk).symm.trans hg
        exact huniq p2 n2 hg2
  | setattr ino size a mt c t =>
    rcases Option.map_eq_some'.mp h with ⟨⟨r, s2⟩, hset, hs⟩
    rw [← hs]
    show InvRoot s2
    rcases setattr_inv _ _ _ _ _ _ _ _ _ hset with hss | ⟨e, a4, he, hs2⟩
    · rw [hss]
      exact hI
    · rw [hs2]
      obtain ⟨⟨dr, hdr, hdrn, hdrp⟩, hmap1, huniq, hnext⟩ := hI
      refine ⟨?_, hmap1, huniq, hnext⟩
      by_cases hk : ino = 1
      · subst hk
        have he2 : e = DirEntry.dir dr := Option.some.inj (he.symm.trans hdr)
        refine ⟨{ dr with attr := a4 }, ?_, hdrn, hdrp⟩
        show aget (aput s.list 1 (DirEntry.withAttr e a4)) 1 = some (DirEntry.dir { dr with attr := a4 })
        rw [aget_aput_self, he2]
        rfl
      · refine ⟨dr, ?_, hdrn, hdrp⟩
        show aget (aput s.list ino (DirEntry.withAttr e a4)) 1 = some (DirEntry.dir dr)
        rw [aget_aput_ne _ _ _ _ (fun hh => hk hh.symm)]
        exact hdr
  | lookup p n =>
    rcases Option.map_eq_some'.mp h with ⟨x, hx, hs⟩
    rw [← hs, lookup_snd _ _ _ _ hx]
    exact hI
  | getattr ino fh =>
    rcases Option.map_eq_some'.mp h with ⟨x, hx, hs⟩
    rw [← hs, getattr_snd _ _ _ _ hx]
    exact hI
  | access ino mask =>
    rcases Option.map_eq_some'.mp h with ⟨x, hx, hs⟩
    rw [← hs, access_snd _ _ _ _ hx]
    exact hI
  | readdir ino fh offset =>
    rcases Option.map_eq_some'.mp h with ⟨x, hx, hs⟩
    rw [← hs, readdir_snd _ _ _ _ _ hx]
    exact hI

theorem invRoot_run (l : List Op) (s0 : Daniel) (h0 : InvRoot s0)
    (hl : ∀ op ∈ l, hitsRootPair op = false) (sE : Daniel)
    (hrun : run s0 l = some sE) : InvRoot sE := by
  induction l generalizing s0 with
  | nil =>
    simp only [run] at hrun
    rw [← Option.some.inj hrun]
    exact h0
  | cons op rest ih =>
    simp only [run] at hrun
    cases hstep : step s0 op with
    | none => rw [hstep] at hrun; exact Option.noConfusion hrun
    | some s1 =>
      rw [hstep] at hrun
      exact ih s1
        (invRoot_step s0 s1 op (hl op (List.mem_cons_self _ _)) hstep h0)
        (fun o ho => hl o (List.mem_cons_of_mem _ ho)) hrun

theorem countAlloc_append (l1 l2 : List Op) :
    countAlloc (l1 ++ l2) = countAlloc l1 + countAlloc l2 := by
  induction l1 with
  | nil => simp [countAlloc]
  | cons op rest ih =>
    simp only [List.cons_append, countAlloc, List.append_eq]
    rw [ih]
    omega

theorem akeys_pushResult (s : Daniel) (item : DirEntry) (d : Directory)
    (hp : aget s.list (DirEntry.parent item) = some (DirEntry.dir d))
    (hfresh : (DirEntry.attr item).ino ∉ akeys s.list) :
    akeys (pushResult s item d).list =
      akeys s.list ++ [(DirEntry.attr item).ino] := by
  have hmem : DirEntry.parent item ∈ akeys s.list :=
    mem_akeys_of_aget_eq_some _ _ _ hp
  have h1 : akeys (aput s.list (DirEntry.parent item) (DirEntry.dir { d with entries := aput d.entries (DirEntry.attr item).ino (DirEntry.kindE item) })) = akeys s.list :=
    akeys_aput_mem _ _ _ hmem
  have h2 : (DirEntry.attr item).ino ∉ akeys (aput s.list (DirEntry.parent item) (DirEntry.dir { d with entries := aput d.entries (DirEntry.attr item).ino (DirEntry.kindE item) })) := by
    rw [h1]
    exact hfresh
  show akeys (aput (aput s.list (DirEntry.parent item) (DirEntry.dir { d with entries := aput d.entries (DirEntry.attr item).ino (DirEntry.kindE item) })) (DirEntry.attr item).ino item) = akeys s.list ++ [(DirEntry.attr item).ino]
  rw [akeys_aput_not_mem _ _ _ h2, h1]

theorem next_not_mem_of_invK (s : Daniel) (hI : InvK s) :
    s.mapper.next_inode ∉ akeys s.list :=
  fun hmem => absurd (hI.1 _ hmem) (lt_irrefl _)

theorem invK_step (s s' : Daniel) (op : Op) (h : step s op = some s')
    (hI : InvK s)
    (hcap : s.mapper.next_inode + (if isAllocOp op then 1 else 0) ≤ U64MAX) :
    InvK s' ∧ s'.mapper.next_inode =
      s.mapper.next_inode + (if isAllocOp op then 1 else 0) := by
  obtain ⟨hbound, h2⟩ := hI
  cases op with
  | create p n m pm t =>
    have hA : isAllocOp (Op.create p n m pm t) = true := rfl
    rw [hA, if_pos rfl] at hcap ⊢
    rcases Option.map_eq_some'.mp h with ⟨⟨r, s2⟩, hc, hs⟩
    obtain ⟨hpush, hr⟩ := create_inv _ _ _ _ _ _ _ _ hc
    obtain ⟨hino, d, hd, hs2⟩ := push_inv _ _ _ hpush
    have hss : s2 = s' := hs
    have hs' : s' = pushResult s (DirEntry.file (File.new n p s.mapper.next_inode pm t)) d := by
      rw [← hss, hs2]
    have hfresh : (DirEntry.attr (DirEntry.file (File.new n p s.mapper.next_inode pm t))).ino ∉ akeys s.list := by
      intro hmem
      exact absurd (hbound _ hmem) (lt_irrefl _)
    have hkeys : akeys s'.list = akeys s.list ++ [(DirEntry.attr (DirEntry.file (File.new n p s.mapper.next_inode pm t))).ino] := by
      rw [hs']
      exact akeys_pushResult s _ d hd hfresh
    have hnext' : s'.mapper.next_inode = inodeAdd s.mapper.next_inode 1 := by
      rw [hs']
      rfl
    have hAdd : inodeAdd s.mapper.next_inode 1 = s.mapper.next_inode + 1 := by
      simp only [inodeAdd, u64max_eq] at *
      omega
    refine ⟨⟨?_, ?_⟩, ?_⟩
    · intro k hk
      rw [hkeys] at hk
      rw [hnext', hAdd]
      rcases List.mem_append.mp hk with hk | hk
      · have := hbound k hk
        omega
      · have hkeq : k = s.mapper.next_inode := List.mem_singleton.mp hk
        omega
    · rw [hnext', hAdd]
      omega
    · rw [hnext', hAdd]
  | mkdir p n m u t =>
    have hA : isAllocOp (Op.mkdir p n m u t) = true := rfl
    rw [hA, if_pos rfl] at hcap ⊢
    rcases Option.map_eq_some'.mp h with ⟨⟨r, s2⟩, hc, hs⟩
    obtain ⟨hp0, hpush, hr⟩ := mkdir_inv _ _ _ _ _ _ _ _ hc
    obtain ⟨hino, d, hd, hs2⟩ := push_inv _ _ _ hpush
    have hss : s2 = s' := hs
    have hs' : s' = pushResult s (DirEntry.dir (Directory.new p n s.mapper.next_inode 0o755 t)) d := by
      rw [← hss, hs2]
    have hfresh : (DirEntry.attr (DirEntry.dir (Directory.new p n s.mapper.next_inode 0o755 t))).ino ∉ akeys s.list := by
      intro hmem
      exact absurd (hbound _ hmem) (lt_irrefl _)
    have hkeys : akeys s'.list = akeys s.list ++ [(DirEntry.attr (DirEntry.dir (Directory.new p n s.mapper.next_inode 0o755 t))).ino] := by
      rw [hs']
      exact akeys_pushResult s _ d hd hfresh
    have hnext' : s'.mapper.next_inode = inodeAdd s.mapper.next_inode 1 := by
      rw [hs']
      rfl
    have hAdd : inodeAdd s.mapper.next_inode 1 = s.mapper.next_inode + 1 := by
      simp only [inodeAdd, u64max_eq] at *
      omega
    refine ⟨⟨?_, ?_⟩, ?_⟩
    · intro k hk
      rw [hkeys] at hk
      rw [hnext', hAdd]
      rcases List.mem_append.mp hk with hk | hk
      · have := hbound k hk
        omega
      · have hkeq : k = s.mapper.next_inode := List.mem_singleton.mp hk
        omega
    · rw [hnext', hAdd]
      omega
    · rw [hnext', hAdd]
  | unlink p n =>
    have hA : isAllocOp (Op.unlink p n) = false := rfl
    rw [hA, if_neg Bool.false_ne_true] at hcap ⊢
    rcases Option.map_eq_some'.mp h with ⟨⟨r, s2⟩, hu, hs⟩
    obtain ⟨hp0, ino, hget, hs2⟩ := unlink_inv _ _ _ _ _ hu
    have hss : s2 = s' := hs
    rw [← hss, hs2]
    refine ⟨⟨?_, h2⟩, rfl⟩
    intro k hk
    exact hbound k ((akeys_adel_sublist s.list ino).subset hk)
  | setattr ino size a mt c t =>
    have hA : isAllocOp (Op.setattr ino size a mt c t) = false := rfl
    rw [hA, if_neg Bool.false_ne_true] at hcap ⊢
    rcases Option.map_eq_some'.mp h with ⟨⟨r, s2⟩, hset, hs⟩
    have hss : s2 = s' := hs
    rw [← hss]
    rcases setattr_inv _ _ _ _ _ _ _ _ _ hset with hseq | ⟨e, a4, he, hs2⟩
    · rw [hseq]
      exact ⟨⟨hbound, h2⟩, by omega⟩
    · rw [hs2]
      have hmem : ino ∈ akeys s.list := mem_akeys_of_aget_eq_some _ _ _ he
      refine ⟨⟨?_, h2⟩, rfl⟩
      intro k hk
      rw [show akeys (aput s.list ino (DirEntry.withAttr e a4)) = akeys s.list from akeys_aput_mem _ _ _ hmem] at hk
      exact hbound k hk
  | lookup p n =>
    have hA : isAllocOp (Op.lookup p n) = false := rfl
    rw [hA, if_neg Bool.false_ne_true] at hcap ⊢
    rcases Option.map_eq_some'.mp h with ⟨x, hx, hs⟩
    rw [← hs, lookup_snd _ _ _ _ hx]
    exact ⟨⟨hbound, h2⟩, by omega⟩
  | getattr ino fh =>
    have hA : isAllocOp (Op.getattr ino fh) = false := rfl
    rw [hA, if_neg Bool.false_ne_true] at hcap ⊢
    rcases Option.map_eq_some'.mp h with ⟨x, hx, hs⟩
    rw [← hs, getattr_snd _ _ _ _ hx]
    exact ⟨⟨hbound, h2⟩, by omega⟩
  | access ino mask =>
    have hA : isAllocOp (Op.access ino mask) = false := rfl
    rw [hA, if_neg Bool.false_ne_true] at hcap ⊢
    rcases Option.map_eq_some'.mp h with ⟨x, hx, hs⟩
    rw [← hs, access_snd _ _ _ _ hx]
    exact ⟨⟨hbound, h2⟩, by omega⟩
  | readdir ino fh offset =>
    have hA : isAllocOp (Op.readdir ino fh offset) = false := rfl
    rw [hA, if_neg Bool.false_ne_true] at hcap ⊢
    rcases Option.map_eq_some'.mp h with ⟨x, hx, hs⟩
    rw [← hs, readdir_snd _ _ _ _ _ hx]
    exact ⟨⟨hbound, h2⟩, by omega⟩

theorem invK_next_run (l : List Op) (s0 : Daniel) (hI : InvK s0)
    (hcap : s0.mapper.next_inode + countAlloc l ≤ U64MAX) (sE : Daniel)
    (hrun : run s0 l = some sE) :
    InvK sE ∧ sE.mapper.next_inode = s0.mapper.next_inode + countAlloc l := by
  induction l generalizing s0 with
  | nil =>
    simp only [run] at hrun
    rw [← Option.some.inj hrun]
    exact ⟨hI, by simp [countAlloc]⟩
  | cons op rest ih =>
    simp only [run] at hrun
    cases hstep : step s0 op with
    | none => rw [hstep] at hrun; exact Option.noConfusion hrun
    | some s1 =>
      rw [hstep] at hrun
      have hcons : countAlloc (op :: rest) =
          (if isAllocOp op then 1 else 0) + countAlloc rest := rfl
      have hcap1 : s0.mapper.next_inode + (if isAllocOp op then 1 else 0) ≤ U64MAX := by
        rw [hcons] at hcap
        omega
      obtain ⟨hI1, hnext1⟩ := invK_step s0 s1 op hstep hI hcap1
      have hcap2 : s1.mapper.next_inode + countAlloc rest ≤ U64MAX := by
        rw [hnext1]
        rw [hcons] at hcap
        omega
      obtain ⟨hIE, hnextE⟩ := ih s1 hI1 hcap2 hrun
      refine ⟨hIE, ?_⟩
      rw [hnextE, hnext1, hcons]
      omega

theorem step_alloc_applyAlloc (s s' : Daniel) (op : Op)
    (hA : isAllocOp op = true) (h : step s op = some s') :
    ∃ a, applyAlloc s op = some (a, s') ∧ a.ino = s.mapper.next_inode := by
  cases op with
  | create p n m pm t =>
    rcases Option.map_eq_some'.mp h with ⟨⟨r, s2⟩, hc, hs⟩
    obtain ⟨hpush, hr⟩ := create_inv _ _ _ _ _ _ _ _ hc
    have hss : s2 = s' := hs
    refine ⟨FileAttr.new s.mapper.next_inode FileType.regularFile pm t, ?_, rfl⟩
    simp [applyAlloc, hc, hr, hss]
  | mkdir p n m u t =>
    rcases Option.map_eq_some'.mp h with ⟨⟨r, s2⟩, hc, hs⟩
    obtain ⟨hp0, hpush, hr⟩ := mkdir_inv _ _ _ _ _ _ _ _ hc
    have hss : s2 = s' := hs
    refine ⟨FileAttr.new s.mapper.next_inode FileType.directory 0o755 t, ?_, rfl⟩
    simp [applyAlloc, hc, hr, hss]
  | unlink p n => exact Bool.noConfusion hA
  | setattr ino size a mt c t => exact Bool.noConfusion hA
  | lookup p n => exact Bool.noConfusion hA
  | getattr ino fh => exact Bool.noConfusion hA
  | access ino mask => exact Bool.noConfusion hA
  | readdir ino fh offset => exact Bool.noConfusion hA

theorem create_root_step (s : Daniel) (d : Directory)
    (hd : aget s.list 1 = some (DirEntry.dir d))
    (h2 : 2 ≤ s.mapper.next_inode) :
    ∃ s', step s (Op.create 1 "x" 0 0 0) = some s' ∧
      applyAlloc s (Op.create 1 "x" 0 0 0) =
        some (FileAttr.new s.mapper.next_inode FileType.regularFile 0 0, s') ∧
      s'.mapper.next_inode = inodeAdd s.mapper.next_inode 1 ∧
      (∃ d2, aget s'.list 1 = some (DirEntry.dir d2)) ∧
      2 ≤ s'.mapper.next_inode := by
  have hino : s.mapper.next_inode ≠ 0 := by omega
  have hpush := push_file_eq s "x" 1 s.mapper.next_inode 0 0 d hino hd
  have hcreate : Daniel.create s 1 "x" 0 0 0 =
      some (R.ok (FileAttr.new s.mapper.next_inode FileType.regularFile 0 0),
        pushResult s (DirEntry.file (File.new "x" 1 s.mapper.next_inode 0 0)) d) := by
    simp only [Daniel.create, hpush]
    rw [aget_pushResult_file]
    rfl
  refine ⟨pushResult s (DirEntry.file (File.new "x" 1 s.mapper.next_inode 0 0)) d,
    ?_, ?_, rfl, ?_, ?_⟩
  · simp [step, hcreate]
  · simp [applyAlloc, hcreate]
  · refine ⟨{ d with entries := aput d.entries s.mapper.next_inode EntryType.file }, ?_⟩
    have hne1 : (1 : Nat) ≠ s.mapper.next_inode := by omega
    show aget (aput (aput s.list 1 (DirEntry.dir { d with entries := aput d.entries s.mapper.next_inode EntryType.file })) s.mapper.next_inode (DirEntry.file (File.new "x" 1 s.mapper.next_inode 0 0))) 1 = some (DirEntry.dir { d with entries := aput d.entries s.mapper.next_inode EntryType.file })
    rw [aget_aput_ne _ _ _ _ hne1, aget_aput_self]
  · show 2 ≤ inodeAdd s.mapper.next_inode 1
    simp only [inodeAdd, u64max_eq]
    omega

theorem run_replicate_create (k : Nat) (s : Daniel) (d : Directory)
    (hd : aget s.list 1 = some (DirEntry.dir d))
    (h2 : 2 ≤ s.mapper.next_inode)
    (hle : s.mapper.next_inode ≤ U64MAX) :
    ∃ s', run s (List.replicate k (Op.create 1 "x" 0 0 0)) = some s' ∧
      s'.mapper.next_inode = min (s.mapper.next_inode + k) U64MAX ∧
      (∃ d2, aget s'.list 1 = some (DirEntry.dir d2)) ∧
      2 ≤ s'.mapper.next_inode := by
  induction k generalizing s d with
  | zero =>
    refine ⟨s, by simp [run], ?_, ⟨d, hd⟩, h2⟩
    simp only [u64max_eq] at hle ⊢
    omega
  | succ k ih =>
    obtain ⟨s1, hstep, _, hnext, ⟨d2, hd2⟩, h21⟩ := create_root_step s d hd h2
    have hle1 : s1.mapper.next_inode ≤ U64MAX := by
      rw [hnext]
      simp only [inodeAdd, u64max_eq]
      omega
    obtain ⟨s', hrun', hnext', hroot', h2'⟩ := ih s1 d2 hd2 h21 hle1
    refine ⟨s', ?_, ?_, hroot', h2'⟩
    · rw [List.replicate_succ]
      simp only [run, hstep]
      exact hrun'
    · rw [hnext', hnext]
      simp only [inodeAdd, u64max_eq] at *
      omega

/-! ## Claims -/

/-- C1 (code_bug evaluation): the claim says that after a successful
`unlink(parent, name)` the unlinked identifier is absent from the parent's
child set and `lookup(parent, name)` / `getattr(id)` fail NotFound.  The
code instead leaves the identifier in the parent's child set, and both
`lookup` and `getattr` then panic on an `expect`.  This theorem evaluates
the code at the failing input: `create(1, "foo")` hands out identifier 2,
`unlink(1, "foo")` succeeds, yet 2 is still in the root's child set and
`getattr(2)` and `lookup(1, "foo")` panic. -/
theorem unlink_removal_incomplete : unlinkDanglingCheck = true := by decide

/-- C2 (code_bug evaluation): the claim says every engine operation returns
a value or a typed error and never terminates the process.  The code
reaches panics through the public operations: on the initial state,
`getattr(2)` hits `expect("failed to find ino in backing fs")`,
`unlink(1, "nope")` hits `expect("failed to find inode")` and
`lookup(2, "x")` hits `expect("failed to get dir")`. -/
theorem engine_ops_can_panic : engineOpPanicCheck = true := by decide

/-- C6 (code_bug evaluation): the claim says the child-insertion step of
`create`/`mkdir` fails NotFound when the parent identifier does not resolve
to an existing directory entry.  The code panics instead: on the initial
state `create(5, "x")` and `mkdir(5, "x")` hit `expect("failed to get dir")`
inside `Daniel::push`, and after `create(1, "f")` (which hands out file
identifier 2), `create(2, "y")` and `mkdir(2, "y")` panic inside
`DirEntry::directory_mut` because the parent resolves to a file. -/
theorem child_insert_bad_parent_panics : childInsertBadParentCheck = true := by
  decide

/-- C3 counterexample: `create(1, "a")` returns identifier 2 and a second
`create(1, "a")` returns identifier 3; neither pair has been removed, yet
`lookup(1, "a")` afterwards returns the identifier-2 record, so the pair
inserted by the identifier-3 call does not round-trip. -/
theorem double_create_breaks_roundtrip : shadowCreateCheck = true := by decide

/-- C3 (amended): for a `(parent, name)` pair inserted by `create` or
`mkdir`, `lookup(parent, name)` returns an attribute record whose identifier
equals the identifier returned by that call, provided that at the moment of
the call the parent is a live directory distinct from the allocated
identifier and every existing child of the parent resolves to an entry whose
name differs from the inserted name.  (The unamended claim fails when a
second entry with the same name is inserted — see the counterexample — and
the guarantee persists only until another operation inserts a same-named
child into the parent or unlinks one of its children, since `lookup` scans
the parent's child set by name and panics on dangling identifiers.) -/
theorem create_mkdir_lookup_roundtrip (s : Daniel) (p : Nat) (nm : String)
    (mode perms umask now : Nat) (d : Directory)
    (hp0 : p ≠ 0)
    (hp : aget s.list p = some (DirEntry.dir d))
    (hpf : p ≠ s.mapper.next_inode)
    (hino : s.mapper.next_inode ≠ 0)
    (hclean : ∀ j t, (j, t) ∈ d.entries →
      j ≠ s.mapper.next_inode ∧
      ∃ e, aget s.list j = some e ∧ DirEntry.name e ≠ nm) :
    (∃ a s', Daniel.create s p nm mode perms now = some (R.ok a, s') ∧
      a.ino = s.mapper.next_inode ∧
      ∃ a2, Daniel.lookup s' p nm = some (R.ok a2, s') ∧ a2.ino = a.ino) ∧
    (∃ a s', Daniel.mkdir s p nm mode umask now = some (R.ok a, s') ∧
      a.ino = s.mapper.next_inode ∧
      ∃ a2, Daniel.lookup s' p nm = some (R.ok a2, s') ∧ a2.ino = a.ino) := by
  constructor
  · have hpush := push_file_eq s nm p s.mapper.next_inode perms now d hino hp
    refine ⟨FileAttr.new s.mapper.next_inode FileType.regularFile perms now,
      pushResult s (DirEntry.file (File.new nm p s.mapper.next_inode perms now)) d,
      ?_, rfl, ?_⟩
    · simp only [Daniel.create, hpush]
      rw [aget_pushResult_file]
      rfl
    · refine ⟨FileAttr.new s.mapper.next_inode FileType.regularFile perms now, ?_, rfl⟩
      exact lookup_after_push s p nm
        (DirEntry.file (File.new nm p s.mapper.next_inode perms now)) d
        hp0 rfl rfl hp hpf hclean
  · have hpush := push_dir_eq s nm p s.mapper.next_inode 0o755 now d hino hp
    refine ⟨FileAttr.new s.mapper.next_inode FileType.directory 0o755 now,
      pushResult s (DirEntry.dir (Directory.new p nm s.mapper.next_inode 0o755 now)) d,
      ?_, rfl, ?_⟩
    · simp only [Daniel.mkdir, if_neg hp0, hpush]
      rw [aget_pushResult_dir]
      rfl
    · refine ⟨FileAttr.new s.mapper.next_inode FileType.directory 0o755 now, ?_, rfl⟩
      exact lookup_after_push s p nm
        (DirEntry.dir (Directory.new p nm s.mapper.next_inode 0o755 now)) d
        hp0 rfl rfl hp hpf hclean

/-- C3 witness: on the initial state (root directory with empty child set),
`create(1, "a")` and `mkdir(1, "a")` each round-trip through
`lookup(1, "a")` with the identifier they returned. -/
theorem create_mkdir_lookup_roundtrip_witness :
    (∃ a s', Daniel.create Daniel.default 1 "a" 0 0 0 = some (R.ok a, s') ∧
      a.ino = Daniel.default.mapper.next_inode ∧
      ∃ a2, Daniel.lookup s' 1 "a" = some (R.ok a2, s') ∧ a2.ino = a.ino) ∧
    (∃ a s', Daniel.mkdir Daniel.default 1 "a" 0 0 0 = some (R.ok a, s') ∧
      a.ino = Daniel.default.mapper.next_inode ∧
      ∃ a2, Daniel.lookup s' 1 "a" = some (R.ok a2, s') ∧ a2.ino = a.ino) :=
  create_mkdir_lookup_roundtrip Daniel.default 1 "a" 0 0 0 0
    (Directory.new 1 "/" 1 0o755 0) (by decide) rfl (by decide) (by decide)
    (fun j t h => absurd h (List.not_mem_nil _))

/-- C8 counterexample: the claim says no sequence of engine operations ever
removes the root's bindings, but `unlink(1, "/")` on the initial state
succeeds and deletes both the root's directory entry and the root's
path-index binding. -/
theorem unlink_root_pair_removes_root : rootUnlinkCheck = true := by decide

/-- C4 counterexample: the allocation frontier is advanced with
`NonZeroU64::saturating_add`, so it saturates at `u64::MAX = 2 ^ 64 - 1`.
After `2 ^ 64 - 3` successful `create(1, "x")` calls from the initial state,
the next allocation hands out identifier `2 ^ 64 - 1`, and so does the
allocation after it: two consecutive allocations return the same identifier,
refuting "each identifier handed out is strictly greater than every
previously returned identifier". -/
theorem allocator_saturates_at_u64max :
    ((run Daniel.default (List.replicate (2 ^ 64 - 3) (Op.create 1 "x" 0 0 0))).bind
      (fun s => (applyAlloc s (Op.create 1 "x" 0 0 0)).map (fun x => x.1.ino))) =
      some (2 ^ 64 - 1) ∧
    ((run Daniel.default (List.replicate (2 ^ 64 - 2) (Op.create 1 "x" 0 0 0))).bind
      (fun s => (applyAlloc s (Op.create 1 "x" 0 0 0)).map (fun x => x.1.ino))) =
      some (2 ^ 64 - 1) := by
  have hbase : aget Daniel.default.list 1 =
      some (DirEntry.dir (Directory.new 1 "/" 1 0o755 0)) := rfl
  have h20 : 2 ≤ Daniel.default.mapper.next_inode := by decide
  have hle0 : Daniel.default.mapper.next_inode ≤ U64MAX := by decide
  constructor
  · obtain ⟨s', hrun, hnext, ⟨d2, hd2⟩, h2'⟩ :=
      run_replicate_create (2 ^ 64 - 3) Daniel.default _ hbase h20 hle0
    obtain ⟨s'', _, happly, _, _, _⟩ := create_root_step s' d2 hd2 h2'
    have hval : s'.mapper.next_inode = 2 ^ 64 - 1 := by
      rw [hnext]
      decide
    rw [hrun]
    show (applyAlloc s' (Op.create 1 "x" 0 0 0)).map (fun x => x.1.ino) =
      some (2 ^ 64 - 1)
    rw [happly]
    show some (FileAttr.new s'.mapper.next_inode FileType.regularFile 0 0).ino =
      some (2 ^ 64 - 1)
    rw [show (FileAttr.new s'.mapper.next_inode FileType.regularFile 0 0).ino = s'.mapper.next_inode from rfl, hval]
  · obtain ⟨s', hrun, hnext, ⟨d2, hd2⟩, h2'⟩ :=
      run_replicate_create (2 ^ 64 - 2) Daniel.default _ hbase h20 hle0
    obtain ⟨s'', _, happly, _, _, _⟩ := create_root_step s' d2 hd2 h2'
    have hval : s'.mapper.next_inode = 2 ^ 64 - 1 := by
      rw [hnext]
      decide
    rw [hrun]
    show (applyAlloc s' (Op.create 1 "x" 0 0 0)).map (fun x => x.1.ino) =
      some (2 ^ 64 - 1)
    rw [happly]
    show some (FileAttr.new s'.mapper.next_inode FileType.regularFile 0 0).ino =
      some (2 ^ 64 - 1)
    rw [show (FileAttr.new s'.mapper.next_inode FileType.regularFile 0 0).ino = s'.mapper.next_inode from rfl, hval]

/-- C4 (amended): along every successful run from the initial state, as long
as the allocation counter has not reached the saturation point
`u64::MAX = 2 ^ 64 - 1` (that is, `2 + countAlloc ≤ 2 ^ 64 - 1` for the
prefix up to the later allocation), every two allocations (`create` or
`mkdir`, in that order within the sequence) hand out identifiers that are
strictly increasing, strictly greater than the reserved root identifier 1,
and fresh — not shared with any live entry at the moment of allocation,
which is the no-two-live-entries-share-an-identifier part. -/
theorem alloc_ids_monotone_fresh_nonroot (ops1 : List Op) (op1 : Op)
    (mid : List Op) (op2 : Op) (rest : List Op) (sF : Daniel)
    (hA1 : isAllocOp op1 = true) (hA2 : isAllocOp op2 = true)
    (hrun : run Daniel.default (ops1 ++ op1 :: mid ++ op2 :: rest) = some sF)
    (hcap : 2 + countAlloc (ops1 ++ op1 :: mid) ≤ U64MAX) :
    ∃ s1 a1 s1' s2 a2 s2',
      run Daniel.default ops1 = some s1 ∧
      applyAlloc s1 op1 = some (a1, s1') ∧
      run s1' mid = some s2 ∧
      applyAlloc s2 op2 = some (a2, s2') ∧
      a1.ino < a2.ino ∧ 1 < a1.ino ∧ 1 < a2.ino ∧
      a1.ino ∉ akeys s1.list ∧ a2.ino ∉ akeys s2.list := by
  rw [run_append] at hrun
  cases hmid : run Daniel.default (ops1 ++ op1 :: mid) with
  | none => rw [hmid] at hrun; exact Option.noConfusion hrun
  | some s2 =>
  rw [hmid] at hrun
  have hrun3 : run s2 (op2 :: rest) = some sF := hrun
  simp only [run] at hrun3
  cases hstep2 : step s2 op2 with
  | none => rw [hstep2] at hrun3; exact Option.noConfusion hrun3
  | some s2' =>
  rw [run_append] at hmid
  cases hr1 : run Daniel.default ops1 with
  | none => rw [hr1] at hmid; exact Option.noConfusion hmid
  | some s1 =>
  rw [hr1] at hmid
  have hmid2 : run s1 (op1 :: mid) = some s2 := hmid
  simp only [run] at hmid2
  cases hstep1 : step s1 op1 with
  | none => rw [hstep1] at hmid2; exact Option.noConfusion hmid2
  | some s1' =>
  rw [hstep1] at hmid2
  have hr2 : run s1' mid = some s2 := hmid2
  have hone : countAlloc [op1] = 1 := by simp [countAlloc, hA1]
  have hcap' : 2 + (countAlloc ops1 + (1 + countAlloc mid)) ≤ U64MAX := by
    have hsplit : countAlloc (ops1 ++ op1 :: mid) =
        countAlloc ops1 + (1 + countAlloc mid) := by
      rw [countAlloc_append]
      have hcons : countAlloc (op1 :: mid) = 1 + countAlloc mid := by
        simp [countAlloc, hA1]
      rw [hcons]
    rw [hsplit] at hcap
    exact hcap
  have hIK0 : InvK Daniel.default := ⟨by decide, by decide⟩
  have hd2 : Daniel.default.mapper.next_inode = 2 := rfl
  have hcap0 : Daniel.default.mapper.next_inode + countAlloc ops1 ≤ U64MAX := by
    rw [hd2]
    omega
  obtain ⟨hIK1, hnext1⟩ := invK_next_run ops1 Daniel.default hIK0 hcap0 s1 hr1
  obtain ⟨a1, happ1, ha1⟩ := step_alloc_applyAlloc s1 s1' op1 hA1 hstep1
  have hrunop1 : run s1 [op1] = some s1' := by simp [run, hstep1]
  have hcapop1 : s1.mapper.next_inode + countAlloc [op1] ≤ U64MAX := by
    rw [hone, hnext1, hd2]
    omega
  obtain ⟨hIK1', hnext1'⟩ := invK_next_run [op1] s1 hIK1 hcapop1 s1' hrunop1
  have hcapmid : s1'.mapper.next_inode + countAlloc mid ≤ U64MAX := by
    rw [hnext1', hone, hnext1, hd2]
    omega
  obtain ⟨hIK2, hnext2⟩ := invK_next_run mid s1' hIK1' hcapmid s2 hr2
  obtain ⟨a2, happ2, ha2⟩ := step_alloc_applyAlloc s2 s2' op2 hA2 hstep2
  refine ⟨s1, a1, s1', s2, a2, s2', rfl, happ1, hr2, happ2, ?_, ?_, ?_, ?_, ?_⟩
  · rw [ha1, ha2, hnext2, hnext1', hone, hnext1, hd2]
    omega
  · rw [ha1, hnext1, hd2]
    omega
  · rw [ha2, hnext2, hnext1', hone, hnext1, hd2]
    omega
  · rw [ha1]
    exact next_not_mem_of_invK s1 hIK1
  · rw [ha2]
    exact next_not_mem_of_invK s2 hIK2

/-- C4 witness: `create(1, "a")` then `mkdir(1, "b")` from the initial
state hand out fresh, strictly increasing, non-root identifiers. -/
theorem alloc_ids_monotone_fresh_nonroot_witness :
    ∃ s1 a1 s1' s2 a2 s2',
      run Daniel.default [] = some s1 ∧
      applyAlloc s1 (Op.create 1 "a" 0 0 0) = some (a1, s1') ∧
      run s1' [] = some s2 ∧
      applyAlloc s2 (Op.mkdir 1 "b" 0 0 0) = some (a2, s2') ∧
      a1.ino < a2.ino ∧ 1 < a1.ino ∧ 1 < a2.ino ∧
      a1.ino ∉ akeys s1.list ∧ a2.ino ∉ akeys s2.list :=
  alloc_ids_monotone_fresh_nonroot [] (Op.create 1 "a" 0 0 0) []
    (Op.mkdir 1 "b" 0 0 0) []
    (runD [Op.create 1 "a" 0 0 0, Op.mkdir 1 "b" 0 0 0]) rfl rfl rfl (by decide)

/-- C5: for every non-zero identifier that resolves to a file, `readdir`
signals End immediately; for every identifier that resolves to a directory,
`readdir(id, cursor)` returns the entry bound to identifier
`max(cursor, 1)` — position `max(cursor, 1)` in the identifier order
`1, 2, 3, …` — in the global entry list, or End when no entry exists
there. -/
theorem readdir_file_end_and_dir_by_identifier (s : Daniel)
    (ino fh offset : Nat) (h0 : ino ≠ 0) :
    (∀ f, aget s.list ino = some (DirEntry.file f) →
      Daniel.readdir s ino fh offset = some (R.err, s)) ∧
    (∀ d, aget s.list ino = some (DirEntry.dir d) →
      Daniel.readdir s ino fh offset =
        some ((match aget s.list (max offset 1) with
               | some e => R.ok e
               | none => R.err), s)) := by
  constructor
  · intro f hf
    simp only [Daniel.readdir, if_neg h0, hf]
  · intro d hd
    simp only [Daniel.readdir, if_neg h0, hd]
    cases hx : aget s.list (max offset 1) with
    | none => rfl
    | some e => rfl

/-- C5 witness: on the initial state, `readdir(1, 0)` (root directory,
cursor 0) returns the entry bound to identifier `max(0, 1) = 1`. -/
theorem readdir_file_end_and_dir_by_identifier_witness :
    Daniel.readdir Daniel.default 1 0 0 =
      some ((match aget Daniel.default.list (max 0 1) with
             | some e => R.ok e
             | none => R.err), Daniel.default) :=
  (readdir_file_end_and_dir_by_identifier Daniel.default 1 0 0 (by decide)).2
    (Directory.new 1 "/" 1 0o755 0) rfl

/-- C7: for every live identifier, `setattr(id, size = some 5, atime = none,
mtime = none, ctime = none)` returns the stored record with only the `size`
field replaced by 5 — the record-update `{ attr with size := 5 }` leaves all
four timestamps and every other attribute field at their prior values — and
stores exactly that record back for the same identifier. -/
theorem setattr_partial_update (s : Daniel) (ino : Nat) (e : DirEntry)
    (nowT : Nat) (h0 : ino ≠ 0) (h : aget s.list ino = some e) :
    Daniel.setattr s ino (some 5) none none none nowT =
      some (R.ok { DirEntry.attr e with size := 5 },
        { s with
            list :=
              aput s.list ino
                (DirEntry.withAttr e { DirEntry.attr e with size := 5 }) }) := by
  simp only [Daniel.setattr, if_neg h0, h]

/-- C7 witness: `setattr` on the root of the initial state with
`size = some 5` and no timestamps. -/
theorem setattr_partial_update_witness :
    Daniel.setattr Daniel.default 1 (some 5) none none none 0 =
      some (R.ok { DirEntry.attr (DirEntry.dir (Directory.new 1 "/" 1 0o755 0)) with size := 5 },
        { Daniel.default with
            list :=
              aput Daniel.default.list 1
                (DirEntry.withAttr (DirEntry.dir (Directory.new 1 "/" 1 0o755 0))
                  { DirEntry.attr (DirEntry.dir (Directory.new 1 "/" 1 0o755 0)) with size := 5 }) }) :=
  setattr_partial_update Daniel.default 1
    (DirEntry.dir (Directory.new 1 "/" 1 0o755 0)) 0 (by decide) rfl

/-- C9: `lookup`, `getattr`, `access` and `readdir` never modify the engine
state: whenever one of them returns (instead of panicking), the post-state
it returns equals the pre-state, so the inode mapper and the entry list are
unchanged. -/
theorem read_ops_preserve_state (s : Daniel) (p : Nat) (n : String)
    (ino : Nat) (fh : Option Nat) (mask : Int) (fh2 offset : Nat) :
    (∀ x, Daniel.lookup s p n = some x → x.2 = s) ∧
    (∀ x, Daniel.getattr s ino fh = some x → x.2 = s) ∧
    (∀ x, Daniel.access s ino mask = some x → x.2 = s) ∧
    (∀ x, Daniel.readdir s ino fh2 offset = some x → x.2 = s) :=
  ⟨fun x h => lookup_snd s p n x h,
   fun x h => getattr_snd s ino fh x h,
   fun x h => access_snd s ino mask x h,
   fun x h => readdir_snd s ino fh2 offset x h⟩

/-- C9 witness: the four read-only operations applied on the initial state
leave it unchanged. -/
theorem read_ops_preserve_state_witness :
    stateOf (Daniel.lookup Daniel.default 1 "z") Daniel.default = Daniel.default ∧
    stateOf (Daniel.getattr Daniel.default 1 none) Daniel.default = Daniel.default ∧
    stateOf (Daniel.access Daniel.default 1 0) Daniel.default = Daniel.default ∧
    stateOf (Daniel.readdir Daniel.default 1 0 0) Daniel.default = Daniel.default := by
  obtain ⟨h1, h2, h3, h4⟩ := read_ops_preserve_state Daniel.default 1 "z" 1 none 0 0 0
  exact ⟨h1 _ rfl, h2 _ rfl, h3 _ rfl, h4 _ rfl⟩

/-- C8 (amended): identifier 1 remains bound to the namespace root in every
state reachable from the initial state by a sequence of engine operations in
which no `create`, `mkdir` or `unlink` addresses the root pair `(1, "/")`:
the root's directory entry (a directory named `"/"` that is its own parent)
and the root's path-index binding `(1, "/") -> 1` are never removed or
reassigned.  (The unamended claim fails because `unlink(1, "/")` succeeds
and removes both — see the counterexample — and a `create`/`mkdir` at
`(1, "/")` would rebind the path-index pair.) -/
theorem root_permanently_bound (ops : List Op) (s' : Daniel)
    (hops : ∀ op ∈ ops, hitsRootPair op = false)
    (h : run Daniel.default ops = some s') :
    (∃ d, aget s'.list 1 = some (DirEntry.dir d) ∧ d.name = "/" ∧ d.parent = 1) ∧
    aget s'.mapper.map (1, "/") = some 1 := by
  obtain ⟨hroot, hmap, _, _⟩ := invRoot_run ops Daniel.default invRoot_default hops s' h
  exact ⟨hroot, hmap⟩

/-- C8 witness: after `mkdir(1, "sub")`, `setattr(1, size = 7)`,
`unlink(1, "sub")` and `getattr(1)` — none of which addresses `(1, "/")` —
the root is still bound. -/
theorem root_permanently_bound_witness :
    (∃ d, aget (runD [Op.mkdir 1 "sub" 0 0 0, Op.setattr 1 (some 7) none none none 0, Op.unlink 1 "sub", Op.getattr 1 none]).list 1 = some (DirEntry.dir d) ∧ d.name = "/" ∧ d.parent = 1) ∧
    aget (runD [Op.mkdir 1 "sub" 0 0 0, Op.setattr 1 (some 7) none none none 0, Op.unlink 1 "sub", Op.getattr 1 none]).mapper.map (1, "/") = some 1 :=
  root_permanently_bound
    [Op.mkdir 1 "sub" 0 0 0, Op.setattr 1 (some 7) none none none 0, Op.unlink 1 "sub", Op.getattr 1 none]
    (runD [Op.mkdir 1 "sub" 0 0 0, Op.setattr 1 (some 7) none none none 0, Op.unlink 1 "sub", Op.getattr 1 none])
    (by decide) rfl

/-- C10: `mkdir` ignores the supplied `mode` and `umask` entirely (any two
choices produce identical results), and whenever it succeeds the returned
attribute record has kind directory and permission bits `0o755`, and the
directory entry created under the returned identifier also carries
permission bits `0o755`. -/
theorem mkdir_ignores_mode_perm_0o755 (s : Daniel) (p : Nat) (n : String)
    (mode1 umask1 mode2 umask2 now : Nat) :
    Daniel.mkdir s p n mode1 umask1 now = Daniel.mkdir s p n mode2 umask2 now ∧
    (∀ a s', Daniel.mkdir s p n mode1 umask1 now = some (R.ok a, s') →
      a.perm = 0o755 ∧ a.kind = FileType.directory ∧
      ∃ d, aget s'.list a.ino = some (DirEntry.dir d) ∧ d.attr.perm = 0o755) := by
  constructor
  · rfl
  · intro a s' h
    obtain ⟨hp0, hpush, hr⟩ := mkdir_inv s p n mode1 umask1 now (R.ok a) s' h
    have ha := R.ok.inj hr
    obtain ⟨hino, d, hd, hs'⟩ := push_inv _ _ _ hpush
    refine ⟨?_, ?_, ?_⟩
    · rw [ha]
      rfl
    · rw [ha]
      rfl
    · refine ⟨Directory.new p n s.mapper.next_inode 0o755 now, ?_, rfl⟩
      rw [hs', ha]
      exact aget_pushResult_ino s _ d

/-- C10 witness: `mkdir(1, "d")` with arbitrary mode `0o700` and umask
`0o22` on the initial state yields a `0o755` directory record. -/
theorem mkdir_ignores_mode_perm_0o755_witness :
    (FileAttr.new 2 FileType.directory 0o755 0).perm = 0o755 ∧
    (FileAttr.new 2 FileType.directory 0o755 0).kind = FileType.directory ∧
    ∃ d, aget (stateOf (Daniel.mkdir Daniel.default 1 "d" 0o700 0o22 0) Daniel.default).list
        (FileAttr.new 2 FileType.directory 0o755 0).ino = some (DirEntry.dir d) ∧
      d.attr.perm = 0o755 :=
  (mkdir_ignores_mode_perm_0o755 Daniel.default 1 "d" 0o700 0o22 0 0 0).2
    (FileAttr.new 2 FileType.directory 0o755 0)
    (stateOf (Daniel.mkdir Daniel.default 1 "d" 0o700 0o22 0) Daniel.default) rfl

end DanielFs
